import Mathlib

/-!
Shallow embedding of the host-configuration and batch-execution core of an
SSH management server (source file: server-simple.mjs), together with proofs
of the specified properties.  JavaScript strings are modelled by Lean
strings (structurally, via their character lists), JavaScript numbers by a
four-way sum (finite rational / NaN / +Infinity / -Infinity), and the
asynchronous concurrency-limited executor by an explicit small-step machine
driven by an arbitrary schedule of runner identifiers.
-/

namespace McpSsh

/-- Model of a JavaScript number: a finite (exact) rational, NaN, or one of
the two infinities.  The operations used by the source (truthiness,
Math.floor, Math.max, Math.min, Number.isFinite) are exact on this model. -/
inductive JSNum where
  | fin (q : ℚ)
  | nan
  | posInf
  | negInf
deriving DecidableEq

/-- JavaScript truthiness of a number: 0, -0 and NaN are falsy. -/
def JSNum.truthy : JSNum → Bool
  | .fin q => q != 0
  | .nan => false
  | .posInf => true
  | .negInf => true

/-- Models the JavaScript expression `x || 1` for a number `x`. -/
def jsOrOne (x : JSNum) : JSNum :=
  if x.truthy then x else .fin 1

/-- Math.floor on the number model. -/
def jsFloor : JSNum → JSNum
  | .fin q => .fin (⌊q⌋ : ℤ)
  | .nan => .nan
  | .posInf => .posInf
  | .negInf => .negInf

/-- Math.max(1, x) on the number model (NaN propagates). -/
def jsMaxOne : JSNum → JSNum
  | .fin q => .fin (max 1 q)
  | .nan => .nan
  | .posInf => .posInf
  | .negInf => .fin 1

/-- The set of characters the source's string trimming removes
(ASCII whitespace, as used by JavaScript String.prototype.trim on the
inputs relevant here). -/
def jsWhitespace (c : Char) : Bool :=
  c = ' ' || c = '\t' || c = '\n' || c = '\r' || c = '\x0b' || c = '\x0c'

/-- JavaScript String.prototype.trim, structurally on the character list. -/
def jsTrim (s : String) : String :=
  ⟨((s.data.dropWhile jsWhitespace).reverse.dropWhile jsWhitespace).reverse⟩

/-- Splitting a character list at a separator character;
`jsSplitList sep []` is `[[]]`, matching JavaScript `"".split(sep) = [""]`. -/
def jsSplitList (sep : Char) : List Char → List (List Char)
  | [] => [[]]
  | c :: cs =>
      let rest := jsSplitList sep cs
      if c = sep then [] :: rest
      else
        match rest with
        | [] => [[c]]
        | r :: rs => (c :: r) :: rs

/-- JavaScript String.prototype.split with a single-character separator. -/
def jsSplit (s : String) (sep : Char) : List String :=
  (jsSplitList sep s.data).map (fun cs => ⟨cs⟩)

/-- JavaScript String.prototype.startsWith with a single-character argument. -/
def jsStartsWithChar (s : String) (c : Char) : Bool :=
  match s.data with
  | [] => false
  | c₀ :: _ => c₀ = c

/-- JavaScript String.prototype.toLowerCase restricted to ASCII letters
(the directive keywords compared by the source are ASCII). -/
def jsToLower (s : String) : String :=
  ⟨s.data.map (fun c => if 'A' ≤ c && c ≤ 'Z' then Char.ofNat (c.toNat + 32) else c)⟩

/-- A JavaScript value that may or may not be a string, as received by the
host-list and command arguments of the batch operations. -/
inductive HVal where
  | str (s : String)
  | nonstr
deriving DecidableEq

/-- Source `uniqueStrings(values)`: keep only strings, trim each, drop
blank and already-seen entries (a Set tracks seen trimmed values),
preserving first-seen order. -/
def uniqueStrings (values : List HVal) : List String :=
  (values.foldl
    (fun (acc : List String × List String) v =>
      match v with
      | .nonstr => acc
      | .str v₀ =>
          let s := jsTrim v₀
          if s = "" ∨ s ∈ acc.1 then acc
          else (acc.1 ++ [s], acc.2 ++ [s]))
    ([], [])).2

/-! ## The concurrency-limited executor (source `runWithConcurrency`)

The source spawns `Math.min(Math.max(1, Math.floor(limit || 1)), items.length)`
runner coroutines; each repeatedly claims the next index from a shared cursor
(the claim and the cursor increment happen synchronously, with no suspension
point between them) and awaits the worker on the claimed item.  Because the
worker is deterministic in the model, one claim-and-complete step per loop
iteration is observationally faithful; the interleaving of runners is an
arbitrary schedule of runner identifiers. -/

/-- The number of runner coroutines the source spawns:
`Math.min(Math.max(1, Math.floor(limit || 1)), items.length)`. -/
def runnerCountOf (limit : JSNum) (n : ℕ) : ℕ :=
  match jsMaxOne (jsFloor (jsOrOne limit)) with
  | .fin q => min ⌊q⌋.toNat n
  | .posInf => n
  | .nan => 0
  | .negInf => 0

/-- Pointwise function update on natural-number-indexed state. -/
def updFn {α : Type} (f : ℕ → α) (i : ℕ) (v : α) : ℕ → α :=
  fun j => if j = i then v else f j

/-- State of the executor machine: the shared cursor, the results array
(modelled as a function, `none` at unwritten positions), a per-index count
of worker invocations (instrumentation for the exactly-once property), and
the exit flag of each runner coroutine. -/
structure ExecState (β : Type) where
  next : ℕ
  results : ℕ → Option β
  calls : ℕ → ℕ
  exited : ℕ → Bool
  runnerCount : ℕ

/-- Initial executor state: cursor 0, empty results, no runner exited. -/
def initExecState (β : Type) (rc : ℕ) : ExecState β :=
  ⟨0, fun _ => none, fun _ => 0, fun _ => false, rc⟩

/-- One loop iteration of runner `r`: claim the cursor and advance it; if the
claimed index is in range, invoke the worker and store its result there,
otherwise the runner returns (exits).  A step by a nonexistent or exited
runner is a no-op. -/
def execStep {α β : Type} (items : List α) (worker : α → ℕ → β)
    (s : ExecState β) (r : ℕ) : ExecState β :=
  if r < s.runnerCount ∧ s.exited r = false then
    if hc : s.next < items.length then
      { s with
        next := s.next + 1
        results := updFn s.results s.next (some (worker (items.get ⟨s.next, hc⟩) s.next))
        calls := updFn s.calls s.next (s.calls s.next + 1) }
    else
      { s with next := s.next + 1, exited := updFn s.exited r true }
  else s

/-- The executor machine run under a schedule of runner identifiers. -/
def runWithConcurrency {α β : Type} (items : List α) (limit : JSNum)
    (worker : α → ℕ → β) (sched : List ℕ) : ExecState β :=
  sched.foldl (execStep items worker) (initExecState β (runnerCountOf limit items.length))

/-- `Promise.all(runners)` has resolved: every runner coroutine has exited. -/
def ExecDone {β : Type} (s : ExecState β) : Prop :=
  ∀ r, r < s.runnerCount → s.exited r = true

instance {β : Type} (s : ExecState β) : Decidable (ExecDone s) :=
  Nat.decidableBallLT s.runnerCount fun r _ => s.exited r = true

/-- The result array returned by the executor: `new Array(items.length)`,
read off position by position. -/
def execResultsList {β : Type} (s : ExecState β) (n : ℕ) : List (Option β) :=
  (List.range n).map s.results

/-! ## SSH config parsing (source class `SSHConfigParser`) -/

/-- One key/value line inside a `Host` block, as produced by the ssh-config
library: a directive name and its raw string value. -/
structure ParamJS where
  param : String
  value : String
deriving DecidableEq

/-- One top-level parsed section of a configuration file: a `Host` block
(pattern and inner lines), an `Include` directive, or any other top-level
directive. -/
inductive SectionJS where
  | hostSec (value : String) (config : List ParamJS)
  | includeSec (value : String)
  | otherSec (param : String) (value : String)
deriving DecidableEq

/-- A resolved host record.  `aliasName` models the source's `alias`
property (`alias` is a keyword in Lean).  `aliasName` and `configFile` are `none` for the
minimal records synthesized from known_hosts (the JavaScript objects lack
those properties there); `extra` is the open key/value bag for directives
not otherwise modelled, keyed by lowercased name, last write wins. -/
structure HostInfo where
  hostname : String
  aliasName : Option String := none
  configFile : Option String := none
  user : Option String := none
  port : Option Int := none
  identityFile : Option String := none
  extra : List (String × String) := []
  source : Option String := none
deriving DecidableEq

/-- JavaScript `parseInt(s, 10)`: skip leading whitespace, read an optional
sign and the longest digit run; `none` models NaN (no digits). -/
def parseIntJS (s : String) : Option Int :=
  let cs := s.data.dropWhile jsWhitespace
  let signed : Int × List Char :=
    match cs with
    | c :: tl => if c = '-' then (-1, tl) else if c = '+' then (1, tl) else (1, cs)
    | [] => (1, cs)
  let ds := signed.2.takeWhile Char.isDigit
  if ds.isEmpty then none
  else some (signed.1 * ((ds.foldl (fun acc c => acc * 10 + (c.toNat - 48)) 0 : ℕ) : Int))

/-- JavaScript object property assignment on a string-keyed map: overwrite
in place when the key exists, otherwise append (insertion order kept). -/
def setAssoc {α : Type} (l : List (String × α)) (k : String) (v : α) : List (String × α) :=
  if l.any (fun kv => kv.1 = k) then
    l.map (fun kv => if kv.1 = k then (k, v) else kv)
  else l ++ [(k, v)]

/-- One iteration of the inner directive loop of `extractHostsFromConfig`:
recognized keys populate named fields, anything else goes into `extra`
under its lowercased name. -/
def applyParam (hi : HostInfo) (p : ParamJS) : HostInfo :=
  let key := jsToLower p.param
  if key = "hostname" then { hi with hostname := p.value }
  else if key = "user" then { hi with user := some p.value }
  else if key = "port" then { hi with port := parseIntJS p.value }
  else if key = "identityfile" then { hi with identityFile := some p.value }
  else { hi with extra := setAssoc hi.extra key p.value }

/-- Source `extractHostsFromConfig(config, configPath)`: skip `Include`
sections and the `Host *` pattern, fold the inner lines of each `Host`
block, and retain the block only when a non-empty `hostname` was set. -/
def extractHostsFromConfig (config : List SectionJS) (configPath : String) : List HostInfo :=
  config.foldl
    (fun hosts sec =>
      match sec with
      | .includeSec _ => hosts
      | .otherSec _ _ => hosts
      | .hostSec value params =>
          if value = "*" then hosts
          else
            let hi := params.foldl applyParam
              { hostname := "", aliasName := some value, configFile := some configPath }
            if hi.hostname ≠ "" then hosts ++ [hi] else hosts)
    []

/-- The file system and include-path expansion the parser runs against:
`files p` is the parsed section list of an existing readable file at `p`
(`none` models a missing file or a read/parse failure, both of which the
source converts to an empty host list), and `expand v base` is
`expandIncludePath(v, base)` — the tilde/relative/glob expansion, already
existence-filtered. -/
structure ConfigEnv where
  files : String → Option (List SectionJS)
  expand : String → String → List String

/-- Source `processIncludeDirectives(configPath)`: missing or unreadable
file yields `[]`; otherwise, for every `Include` section with a truthy
value, in file order, expand it and recurse into each resulting path,
appending each subtree's hosts to the accumulator, and after all sections
append this file's own `Host` records.  The source recurses unboundedly
(no cycle guard); `fuel` bounds the recursion depth in the model, with 0
modelling the cutoff of a diverging chain. -/
def processIncludeDirectives (env : ConfigEnv) : ℕ → String → List HostInfo
  | 0, _ => []
  | fuel + 1, configPath =>
      match env.files configPath with
      | none => []
      | some config =>
          let hosts := config.foldl
            (fun acc sec =>
              match sec with
              | .includeSec v =>
                  if v ≠ "" then
                    (env.expand v configPath).foldl
                      (fun a p => a ++ processIncludeDirectives env fuel p) acc
                  else acc
              | _ => acc)
            []
          hosts ++ extractHostsFromConfig config configPath

/-- The host contribution of one section of a file during include
processing: the concatenated subtree results of an `Include` section with a
truthy value, nothing otherwise. -/
def includeHosts (env : ConfigEnv) (fuel : ℕ) (configPath : String) : SectionJS → List HostInfo
  | .includeSec v =>
      if v ≠ "" then ((env.expand v configPath).map (processIncludeDirectives env fuel)).flatten
      else []
  | _ => []

/-- Source `parseKnownHosts` applied to the file content: split into lines,
drop lines whose trim is empty and lines starting with `#`, take
`line.split(' ')[0].split(',')[0]`, and drop empty tokens. -/
def parseKnownHosts (content : String) : List String :=
  (((jsSplit content '\n').filter
      (fun line => jsTrim line ≠ "" ∧ ¬ jsStartsWithChar line '#')).map
    (fun line => (jsSplit ((jsSplit line ' ').headD "") ',').headD "")).filter
    (fun host => host ≠ "")

/-- The amended specification of `parseKnownHosts`, written as a single
line-wise partial extraction: a non-blank, non-comment line contributes the
first comma-delimited token of its first space-delimited field when that
token is non-empty.  No deduplication. -/
def specParseKnownHosts (content : String) : List String :=
  (jsSplit content '\n').filterMap
    (fun line =>
      if jsTrim line = "" ∨ jsStartsWithChar line '#' then none
      else
        let tok := (jsSplit ((jsSplit line ' ').headD "") ',').headD ""
        if tok = "" then none else some tok)

/-- The `source: 'ssh_config'` tag stamped onto every config host by
`getAllKnownHosts` (the forEach mutation at the end of the source). -/
def tagConfig (h : HostInfo) : HostInfo :=
  { h with source := some "ssh_config" }

/-- The minimal record appended for an unmatched known_hosts name. -/
def minimalKnownHost (name : String) : HostInfo :=
  { hostname := name, source := some "known_hosts" }

/-- The match test of the dedup loop: `host.hostname === name || host.alias === name`. -/
def hostMatchesName (h : HostInfo) (name : String) : Bool :=
  h.hostname = name ∨ h.aliasName = some name

/-- Source `getAllKnownHosts`, as a function of the two already-computed
inputs (the config hosts from `processIncludeDirectives` and the names from
`parseKnownHosts`): start from the config hosts, append a minimal record
for every name no config host matches, then stamp the config hosts with
their source tag (the source mutates the shared objects after the loop, so
the returned array holds the tagged config hosts first). -/
def getAllKnownHostsFrom (configHosts : List HostInfo) (names : List String) : List HostInfo :=
  let appended := names.foldl
    (fun acc name =>
      if configHosts.any (fun h => hostMatchesName h name) then acc
      else acc ++ [minimalKnownHost name])
    []
  configHosts.map tagConfig ++ appended

/-- A concrete two-file environment: file `A` includes `B` and then
declares host `h1`; file `B` declares host `h2`. -/
def envAB : ConfigEnv where
  files := fun p =>
    if p = "A" then
      some [.includeSec "B", .hostSec "h1" [⟨"HostName", "host1.example.com"⟩]]
    else if p = "B" then
      some [.hostSec "h2" [⟨"HostName", "host2.example.com"⟩]]
    else none
  expand := fun v base => if v = "B" ∧ base = "A" then ["B"] else []

/-! ## Group file loading (source `loadGroupsFile`) -/

/-- A parsed JSON document. -/
inductive JVal where
  | jnull
  | jbool (b : Bool)
  | jnum (q : ℚ)
  | jstr (s : String)
  | jarr (elems : List JVal)
  | jobj (fields : List (String × JVal))

/-- JavaScript truthiness of a parsed JSON value. -/
def JVal.truthy : JVal → Bool
  | .jnull => false
  | .jbool b => b
  | .jnum q => q != 0
  | .jstr s => s != ""
  | .jarr _ => true
  | .jobj _ => true

/-- `typeof v === 'object'` for a parsed JSON value: true for objects,
arrays, and null. -/
def JVal.typeofObject : JVal → Bool
  | .jnull => true
  | .jarr _ => true
  | .jobj _ => true
  | _ => false

/-- Object.entries on the values that can reach it here: an object's own
fields in insertion order, or an array's elements keyed by their decimal
indices. -/
def jsEntries : JVal → List (String × JVal)
  | .jobj fields => fields
  | .jarr elems => elems.mapIdx (fun i v => (Nat.repr i, v))
  | _ => []

/-- The per-group host filter of `loadGroupsFile`:
`hosts.filter(h => typeof h === 'string' && h.trim() !== '')`,
keeping the original (untrimmed) strings. -/
def keepGroupHost : JVal → Option String
  | .jstr s => if jsTrim s ≠ "" then some s else none
  | _ => none

/-- Source `loadGroupsFile(groupsPath)` as a function of the read/parse
outcome: `none` models a missing file or a JSON.parse failure (the catch
branch returns `{}`); otherwise, when the parsed value is truthy and of
object type, every entry whose value is an array becomes a group (object
assignment semantics), and all other top-level values yield `{}`. -/
def loadGroupsFile (doc : Option JVal) : List (String × List String) :=
  match doc with
  | none => []
  | some parsed =>
      if parsed.truthy && parsed.typeofObject then
        (jsEntries parsed).foldl
          (fun groups kv =>
            match kv.2 with
            | .jarr hosts => setAssoc groups kv.1 (hosts.filterMap keepGroupHost)
            | _ => groups)
          []
      else []

/-- The amended per-entry specification of `loadGroupsFile` on a
well-formed document: an entry whose value is a list becomes a group whose
members are its entries that are strings with non-empty trim; any other
entry is dropped. -/
def cleanGroupEntry (kv : String × JVal) : Option (String × List String) :=
  match kv.2 with
  | .jarr hosts => some (kv.1, hosts.filterMap keepGroupHost)
  | _ => none

/-! ## Remote command execution and batch fan-out (source class `SSHClient`) -/

structure CmdResult where
  stdout : String
  stderr : String
  code : Int
deriving DecidableEq

/-- Outcome of one `execFileAsync` invocation: resolution with captured
output, or rejection with an error object carrying optional
stdout/stderr/code properties and a message. -/
inductive ExecOutcome where
  | ok (stdout stderr : String)
  | err (stdout stderr : Option String) (code : Option Int) (message : String)
deriving DecidableEq

/-- `x || y` for an optional JavaScript string property (absent and empty
are both falsy). -/
def jsOrStr (x : Option String) (y : String) : String :=
  match x with
  | some s => if s = "" then y else s
  | none => y

/-- `error.code || 1` (absent and 0 are falsy). -/
def jsOrCodeOne (c : Option Int) : Int :=
  match c with
  | some ci => if ci = 0 then 1 else ci
  | none => 1

/-- The timeout `runRemoteCommand` hands to `execFileAsync` for every ssh
invocation: hard-coded 30000 ms in the source. -/
def sshHardcodedTimeoutMs : Int := 30000

/-- The remote-execution primitive: host alias, command string, and the
timeout passed to `execFileAsync`. -/
def SshExec : Type := String → String → Int → ExecOutcome

/-- Source `runRemoteCommand(hostAlias, command)`: invoke ssh with the
hard-coded 30000 ms timeout; resolution yields code 0; rejection is
converted to a result with `stdout || ''`, `stderr || message`, and
`code || 1`. -/
def runRemoteCommand (prim : SshExec) (hostAlias command : String) : CmdResult :=
  match prim hostAlias command sshHardcodedTimeoutMs with
  | .ok out errS => { stdout := out, stderr := errS, code := 0 }
  | .err sout serr c msg =>
      { stdout := jsOrStr sout "", stderr := jsOrStr serr msg, code := jsOrCodeOne c }

structure HostCmdResult where
  host : String
  stdout : String
  stderr : String
  code : Int
deriving DecidableEq

structure BatchOptions where
  concurrency : Option JSNum := none
  timeoutMs : Option JSNum := none

/-- `Number.isFinite(x) ? x : dflt` for an optional options property. -/
def finiteOr (x : Option JSNum) (dflt : ℚ) : ℚ :=
  match x with
  | some (.fin q) => q
  | _ => dflt

/-- Aggregate result of `runBatchCommand`, instrumented with the list of
remote-execution primitive invocations (host and timeout actually passed to
`execFileAsync`), empty exactly when the primitive was never invoked. -/
structure BatchResult where
  results : List HostCmdResult
  success : Bool
  message : Option String := none
  invocations : List (String × Int) := []
deriving DecidableEq

/-- Source `runBatchCommand(hosts, command, options)`: dedup/trim the
hosts, short-circuit on an empty host list or a blank/non-string command,
read the `concurrency` and `timeoutMs` options (the computed
`perHostTimeoutMs` is never used further by the source — `runRemoteCommand`
hard-codes its own timeout), and fan the command out.  The fan-out runs
through the concurrency-limited executor, which by the executor development
above yields, under every completing schedule, exactly the index-aligned
map of the worker over the host list; the map below is that result. -/
def runBatchCommand (prim : SshExec) (hosts : List HVal) (command : HVal)
    (options : BatchOptions) : BatchResult :=
  let hostList := uniqueStrings hosts
  if hostList.isEmpty then
    { results := [], success := false, message := some "No hosts provided" }
  else
    match command with
    | .nonstr => { results := [], success := false, message := some "No command provided" }
    | .str cmd =>
        if jsTrim cmd = "" then
          { results := [], success := false, message := some "No command provided" }
        else
          let concurrency := finiteOr options.concurrency 5
          let perHostTimeoutMs := finiteOr options.timeoutMs 30000
          let results := hostList.map fun hostAlias =>
            let r := runRemoteCommand prim hostAlias cmd
            { host := hostAlias, stdout := r.stdout, stderr := r.stderr,
              code := r.code : HostCmdResult }
          { results := results
            success := results.all fun r => r.code == 0
            invocations := hostList.map fun hostAlias => (hostAlias, sshHardcodedTimeoutMs) }

/-- Recursive presentation of `uniqueStrings` with an explicit seen set,
used to reason about its output. -/
def uniqueStringsAux (seen : List String) : List HVal → List String
  | [] => []
  | .nonstr :: vs => uniqueStringsAux seen vs
  | .str v₀ :: vs =>
      let s := jsTrim v₀
      if s = "" ∨ s ∈ seen then uniqueStringsAux seen vs
      else s :: uniqueStringsAux (seen ++ [s]) vs

/-! ## File sync fan-out (source `SSHClient.syncFile`) -/

/-- One invocation of the transfer primitive: which tool the source spawns
(`rsync -avz --progress [--delete]` or `scp -r`), the target host, the two
paths, whether delete-extraneous was requested, and the timeout passed to
`execFileAsync`. -/
structure SyncInvocation where
  tool : String
  host : String
  localPath : String
  remotePath : String
  withDelete : Bool
  timeoutMs : ℚ
deriving DecidableEq

structure SyncHostResult where
  host : String
  success : Bool
  stdout : String
  stderr : String
  error : Option String := none
deriving DecidableEq

structure SyncOptions where
  useRsync : Option Bool := none
  delete : Option Bool := none
  concurrency : Option JSNum := none
  timeoutMs : Option JSNum := none

/-- Aggregate result of `syncFile`, instrumented with the transfer
primitive invocations actually made. -/
structure SyncResult where
  results : List SyncHostResult
  success : Bool
  message : Option String := none
  successCount : ℕ := 0
  failCount : ℕ := 0
  invocations : List SyncInvocation := []
deriving DecidableEq

/-- The transfer primitive (scp/rsync process invocation). -/
def SyncPrim : Type := SyncInvocation → ExecOutcome

/-- The path validation of `syncFile`: `!p || typeof p !== 'string'` —
rejects exactly non-strings and the empty string; a whitespace-only string
is truthy and passes. -/
def invalidPathArg : HVal → Bool
  | .str s => s = ""
  | .nonstr => true

/-- Source `syncFile(localPath, remotePath, hosts, options)`: dedup/trim
hosts, validate the two paths, then per host spawn rsync (with optional
`--delete`) or `scp -r` under the configured timeout, converting a
rejection into a failure record; aggregate `success`, the tallies, and the
invocation log.  As with `runBatchCommand`, the executor's completed result
is the index-aligned map over the host list. -/
def syncFile (prim : SyncPrim) (localPath remotePath : HVal) (hosts : List HVal)
    (options : SyncOptions) : SyncResult :=
  let hostList := uniqueStrings hosts
  if hostList.isEmpty then
    { results := [], success := false, message := some "No hosts provided" }
  else if invalidPathArg localPath then
    { results := [], success := false, message := some "No local path provided" }
  else if invalidPathArg remotePath then
    { results := [], success := false, message := some "No remote path provided" }
  else
    let lp := match localPath with | .str s => s | .nonstr => ""
    let rp := match remotePath with | .str s => s | .nonstr => ""
    let useRsync := options.useRsync == some true
    let concurrency := finiteOr options.concurrency 5
    let timeoutMs := finiteOr options.timeoutMs 120000
    let invs := hostList.map fun hostAlias =>
      if useRsync then
        { tool := "rsync", host := hostAlias, localPath := lp, remotePath := rp,
          withDelete := options.delete == some true, timeoutMs := timeoutMs : SyncInvocation }
      else
        { tool := "scp", host := hostAlias, localPath := lp, remotePath := rp,
          withDelete := false, timeoutMs := timeoutMs : SyncInvocation }
    let results := invs.map fun inv =>
      match prim inv with
      | .ok out errS =>
          { host := inv.host, success := true, stdout := out, stderr := errS : SyncHostResult }
      | .err sout serr _ msg =>
          { host := inv.host, success := false, error := some msg,
            stdout := jsOrStr sout "", stderr := jsOrStr serr "" : SyncHostResult }
    { results := results
      success := results.all fun r => r.success
      successCount := (results.filter fun r => r.success).length
      failCount := (results.filter fun r => !r.success).length
      invocations := invs }

/-- A transfer primitive that always succeeds with empty output. -/
def primSyncOk : SyncPrim := fun _ => .ok "" ""

/-- A remote-execution primitive that always succeeds with empty output. -/
def primOk : SshExec := fun _ _ _ => .ok "" ""

/-- Invariant of the executor machine: every position below the cursor (and
in range) holds the worker's output for that position and was claimed exactly
once; every position at or above the cursor (or out of range) is untouched;
and a runner exits only after observing the cursor past the end. -/
def ExecInv {α β : Type} (items : List α) (worker : α → ℕ → β) (s : ExecState β) : Prop :=
  (∀ i (h : i < items.length), i < s.next →
      s.results i = some (worker (items.get ⟨i, h⟩) i) ∧ s.calls i = 1) ∧
  (∀ i, items.length ≤ i ∨ s.next ≤ i → s.results i = none ∧ s.calls i = 0) ∧
  (∀ r, s.exited r = true → items.length ≤ s.next)

lemma execInv_init {α β : Type} (items : List α) (worker : α → ℕ → β) (rc : ℕ) :
    ExecInv items worker (initExecState β rc) := by
  refine ⟨fun i h hi => absurd hi (by simp [initExecState]), fun i _ => ⟨rfl, rfl⟩, ?_⟩
  intro r hr
  simp [initExecState] at hr

lemma execStep_runnerCount {α β : Type} (items : List α) (worker : α → ℕ → β)
    (s : ExecState β) (r : ℕ) : (execStep items worker s r).runnerCount = s.runnerCount := by
  unfold execStep
  split
  · split <;> rfl
  · rfl

lemma execInv_step {α β : Type} (items : List α) (worker : α → ℕ → β)
    (s : ExecState β) (r : ℕ) (hs : ExecInv items worker s) :
    ExecInv items worker (execStep items worker s r) := by
  obtain ⟨h₁, h₂, h₃⟩ := hs
  unfold execStep
  split
  · split
    case isTrue hc =>
      refine ⟨?_, ?_, ?_⟩
      · intro i h hi
        simp only at hi ⊢
        rcases Nat.lt_succ_iff_lt_or_eq.mp hi with hlt | heq
        · have hne : i ≠ s.next := Nat.ne_of_lt hlt
          simpa [updFn, hne] using h₁ i h hlt
        · have h0 := h₂ s.next (Or.inr le_rfl)
          subst heq
          simp [updFn, h0.2]
      · intro i hi
        simp only at hi ⊢
        have hne : i ≠ s.next := by
          rcases hi with hn | hn
          · exact fun he => absurd (he ▸ hc) (not_lt.mpr hn)
          · omega
        have : items.length ≤ i ∨ s.next ≤ i := by omega
        simpa [updFn, hne] using h₂ i this
      · intro r₂ hr₂
        simp only at hr₂ ⊢
        exact le_trans (h₃ r₂ hr₂) (Nat.le_succ _)
    case isFalse hc =>
      have hend : items.length ≤ s.next := Nat.le_of_not_lt hc
      refine ⟨?_, ?_, ?_⟩
      · intro i h hi
        simp only at hi
        exact h₁ i h (by omega)
      · intro i hi
        simp only at hi
        exact h₂ i (by omega)
      · intro r₂ _
        simp only
        omega
  · exact ⟨h₁, h₂, h₃⟩

lemma execInv_foldl {α β : Type} (items : List α) (worker : α → ℕ → β)
    (sched : List ℕ) (s : ExecState β) (hs : ExecInv items worker s) :
    ExecInv items worker (sched.foldl (execStep items worker) s) := by
  induction sched generalizing s with
  | nil => exact hs
  | cons r rest ih => exact ih _ (execInv_step items worker s r hs)

lemma execFoldl_runnerCount {α β : Type} (items : List α) (worker : α → ℕ → β)
    (sched : List ℕ) (s : ExecState β) :
    (sched.foldl (execStep items worker) s).runnerCount = s.runnerCount := by
  induction sched generalizing s with
  | nil => rfl
  | cons r rest ih => rw [List.foldl_cons, ih, execStep_runnerCount]

/-- For an integer limit `k ≥ 1` the source spawns `min k n` runners. -/
lemma runnerCountOf_natCast (k n : ℕ) (hk : 1 ≤ k) :
    runnerCountOf (.fin (k : ℚ)) n = min k n := by
  have hk0 : ((k : ℚ)) ≠ 0 := by exact_mod_cast Nat.one_le_iff_ne_zero.mp hk
  simp only [runnerCountOf, jsOrOne, jsFloor, jsMaxOne, JSNum.truthy, hk0, bne_iff_ne,
    ne_eq, not_false_eq_true, if_true, Int.floor_natCast]
  have hmax : (1 : ℚ) ⊔ (((k : ℤ) : ℚ)) = (((k : ℤ) : ℚ)) :=
    max_eq_right (by exact_mod_cast hk)
  rw [hmax, Int.floor_intCast]
  simp

lemma execResultsList_getD {β : Type} (s : ExecState β) (n i : ℕ) (h : i < n) :
    (execResultsList s n).getD i none = s.results i := by
  simp [execResultsList, List.getD, h]

/-- C1: for every item sequence, every limit ≥ 1, every worker, and every
runner schedule under which the executor has completed, `runWithConcurrency`
produces a result array of the items' length whose entry at position `i` is
the worker's output on `items[i]` and `i` (regardless of the schedule, hence
of completion order), and the worker was invoked exactly once per item and
never outside the range. -/
theorem runWithConcurrency_correct {α β : Type} (items : List α) (limit : ℕ)
    (worker : α → ℕ → β) (sched : List ℕ) (hlim : 1 ≤ limit)
    (hdone : ExecDone (runWithConcurrency items (.fin (limit : ℚ)) worker sched)) :
    (execResultsList (runWithConcurrency items (.fin (limit : ℚ)) worker sched)
        items.length).length = items.length ∧
    (∀ i (h : i < items.length),
        (execResultsList (runWithConcurrency items (.fin (limit : ℚ)) worker sched)
            items.length).getD i none = some (worker (items.get ⟨i, h⟩) i)) ∧
    (∀ i, i < items.length →
        (runWithConcurrency items (.fin (limit : ℚ)) worker sched).calls i = 1) ∧
    (∀ i, items.length ≤ i →
        (runWithConcurrency items (.fin (limit : ℚ)) worker sched).calls i = 0) := by
  set S := runWithConcurrency items (.fin (limit : ℚ)) worker sched with hS
  have hInv : ExecInv items worker S :=
    execInv_foldl items worker sched _ (execInv_init items worker _)
  have hrc : S.runnerCount = min limit items.length := by
    rw [hS]
    unfold runWithConcurrency
    rw [execFoldl_runnerCount]
    simp [initExecState, runnerCountOf_natCast _ _ hlim]
  have hnext : ∀ i, i < items.length → i < S.next := by
    intro i hi
    have hex : S.exited 0 = true := hdone 0 (by omega)
    have := hInv.2.2 0 hex
    omega
  refine ⟨by simp [execResultsList], ?_, ?_, ?_⟩
  · intro i h
    rw [execResultsList_getD _ _ _ h]
    exact (hInv.1 i h (hnext i h)).1
  · intro i hi
    exact (hInv.1 i hi (hnext i hi)).2
  · intro i hi
    exact (hInv.2.1 i (Or.inl hi)).2

/-- Witness for C1: three items, limit 2, a concrete completing schedule in
which the second runner overtakes the first; the result at position 2 is the
worker's output on the third item, and every item was claimed exactly once. -/
theorem runWithConcurrency_correct_witness :
    1 ≤ 2 ∧
    ExecDone (runWithConcurrency [10, 20, 30] (.fin ((2 : ℕ) : ℚ))
      (fun a i => a + i) [0, 1, 1, 1, 0]) ∧
    (execResultsList (runWithConcurrency [10, 20, 30] (.fin ((2 : ℕ) : ℚ))
        (fun a i => a + i) [0, 1, 1, 1, 0]) 3).getD 2 none = some 32 ∧
    (runWithConcurrency [10, 20, 30] (.fin ((2 : ℕ) : ℚ))
        (fun a i => a + i) [0, 1, 1, 1, 0]).calls 1 = 1 := by
  have h := runWithConcurrency_correct [10, 20, 30] 2 (fun a i => a + i)
    [0, 1, 1, 1, 0] (by decide) (by decide)
  exact ⟨by decide, by decide, h.2.1 2 (by decide), h.2.2.1 1 (by decide)⟩

lemma runnerCountOf_one (n : ℕ) : runnerCountOf (.fin 1) n = min 1 n := by
  norm_num [runnerCountOf, jsOrOne, jsFloor, jsMaxOne, JSNum.truthy]

lemma runnerCountOf_clamped (limit : JSNum)
    (h : limit = .nan ∨ limit = .negInf ∨ ∃ q : ℚ, q ≤ 0 ∧ limit = .fin q) (n : ℕ) :
    runnerCountOf limit n = runnerCountOf (.fin 1) n := by
  rw [runnerCountOf_one]
  rcases h with h | h | ⟨q, hq, h⟩ <;> subst h
  · norm_num [runnerCountOf, jsOrOne, jsFloor, jsMaxOne, JSNum.truthy]
  · norm_num [runnerCountOf, jsOrOne, jsFloor, jsMaxOne, JSNum.truthy]
  · rcases eq_or_lt_of_le hq with hq0 | hqneg
    · subst hq0
      norm_num [runnerCountOf, jsOrOne, jsFloor, jsMaxOne, JSNum.truthy]
    · have hq0 : q ≠ 0 := ne_of_lt hqneg
      have hfl : ((⌊q⌋ : ℤ) : ℚ) < 1 := by
        have : (⌊q⌋ : ℚ) ≤ q := Int.floor_le q
        linarith
      have hmax : max (1 : ℚ) ((⌊q⌋ : ℤ) : ℚ) = 1 := max_eq_left (le_of_lt hfl)
      norm_num [runnerCountOf, jsOrOne, jsFloor, jsMaxOne, JSNum.truthy, hq0, hmax]

/-- C7 counterexample: with limit +Infinity and a two-item list the executor
spawns two runner coroutines, not one — `Math.floor(Infinity || 1)` is
Infinity, `Math.max(1, Infinity)` is Infinity, and `Math.min(Infinity, 2)`
is 2, so a +Infinity limit is not clamped to 1 and two workers are
logically active. -/
theorem runWithConcurrency_posInf_not_clamped :
    (runWithConcurrency ([0, 0] : List ℕ) .posInf (fun a _ => a) []).runnerCount = 2 ∧
    (runWithConcurrency ([0, 0] : List ℕ) (.fin 1) (fun a _ => a) []).runnerCount = 1 ∧
    (2 : ℕ) ≠ 1 := by
  refine ⟨rfl, ?_, by decide⟩
  show runnerCountOf (.fin 1) 2 = 1
  rw [runnerCountOf_one]
  rfl

/-- C7 (amended): for every limit that is NaN, -Infinity, or a non-positive
finite number, `runWithConcurrency` behaves exactly as if the limit were 1
(the clamp `Math.max(1, Math.floor(limit || 1))` yields 1, so the whole
machine is equal); a +Infinity limit, however, escapes the clamp and spawns
one runner per item. -/
theorem runWithConcurrency_clamp_amended :
    (∀ (limit : JSNum),
      (limit = .nan ∨ limit = .negInf ∨ ∃ q : ℚ, q ≤ 0 ∧ limit = .fin q) →
      ∀ {α β : Type} (items : List α) (worker : α → ℕ → β) (sched : List ℕ),
        runWithConcurrency items limit worker sched
          = runWithConcurrency items (.fin 1) worker sched) ∧
    (∀ n, runnerCountOf .posInf n = n) := by
  constructor
  · intro limit h α β items worker sched
    unfold runWithConcurrency
    rw [runnerCountOf_clamped limit h]
  · intro n
    rfl

/-- Witness for C7 (amended): the finite non-positive limit -3 drives the
machine exactly as limit 1 does on a concrete two-item run. -/
theorem runWithConcurrency_clamp_amended_witness :
    (JSNum.fin (-3) = .nan ∨ JSNum.fin (-3) = .negInf ∨
      ∃ q : ℚ, q ≤ 0 ∧ JSNum.fin (-3) = .fin q) ∧
    runWithConcurrency ([5, 6] : List ℕ) (.fin (-3)) (fun a _ => a) [0, 0, 0]
      = runWithConcurrency ([5, 6] : List ℕ) (.fin 1) (fun a _ => a) [0, 0, 0] := by
  have hyp : JSNum.fin (-3) = .nan ∨ JSNum.fin (-3) = .negInf ∨
      ∃ q : ℚ, q ≤ 0 ∧ JSNum.fin (-3) = .fin q :=
    Or.inr (Or.inr ⟨-3, by norm_num, rfl⟩)
  exact ⟨hyp, runWithConcurrency_clamp_amended.1 _ hyp _ _ _⟩

lemma foldl_stepwise_append {α β : Type} (g : List β → α → List β) (f : α → List β)
    (hg : ∀ acc x, g acc x = acc ++ f x) (l : List α) (acc : List β) :
    l.foldl g acc = acc ++ (l.map f).flatten := by
  induction l generalizing acc with
  | nil => simp
  | cons x xs ih => simp [hg, ih, List.append_assoc]

lemma flatten_map_ite_singleton {α β : Type} (p : α → Bool) (f : α → β) (l : List α) :
    (l.map (fun a => if p a then ([] : List β) else [f a])).flatten
      = (l.filter (fun a => ¬ p a)).map f := by
  induction l with
  | nil => rfl
  | cons a l ih => by_cases h : p a <;> simp [h, ih]

lemma filter_map_filter {α β : Type} (p : α → Bool) (f : α → β) (q : β → Bool) (l : List α) :
    ((l.filter p).map f).filter q
      = l.filterMap
          (fun a => if p a then (if q (f a) then some (f a) else none) else none) := by
  induction l with
  | nil => rfl
  | cons a l ih =>
      by_cases hp : p a
      · by_cases hq : q (f a) <;> simp [hp, hq, ih]
      · simp [hp, ih]

/-- C2: include processing is depth-first and included-first.  First, for
any file in any environment, the result is the concatenation, in file
order, of the subtree results of every `Include` section, followed by the
file's own `Host` records.  Second, the concrete instance: a root `A` that
includes `B` and then declares `h1`, where `B` declares `h2`, resolves to
`[h2, h1]`. -/
theorem processIncludeDirectives_order :
    (∀ (env : ConfigEnv) (fuel : ℕ) (path : String) (config : List SectionJS),
        env.files path = some config →
        processIncludeDirectives env (fuel + 1) path
          = (config.map (includeHosts env fuel path)).flatten
            ++ extractHostsFromConfig config path) ∧
    (∀ (env : ConfigEnv) (fuel : ℕ) (pA pB : String),
        env.files pA = some [.includeSec "B",
          .hostSec "h1" [⟨"HostName", "host1.example.com"⟩]] →
        env.expand "B" pA = [pB] →
        env.files pB = some [.hostSec "h2" [⟨"HostName", "host2.example.com"⟩]] →
        processIncludeDirectives env (fuel + 2) pA
          = [{ hostname := "host2.example.com", aliasName := some "h2",
               configFile := some pB },
             { hostname := "host1.example.com", aliasName := some "h1",
               configFile := some pA }]) := by
  have part1 : ∀ (env : ConfigEnv) (fuel : ℕ) (path : String) (config : List SectionJS),
      env.files path = some config →
      processIncludeDirectives env (fuel + 1) path
        = (config.map (includeHosts env fuel path)).flatten
          ++ extractHostsFromConfig config path := by
    intro env fuel path config hf
    simp only [processIncludeDirectives, hf]
    rw [foldl_stepwise_append _ (includeHosts env fuel path) ?_ config []]
    · simp
    · intro acc sec
      cases sec with
      | includeSec v =>
          by_cases hv : v = ""
          · simp [includeHosts, hv]
          · simp only [includeHosts, hv, ne_eq, not_false_eq_true, if_true]
            exact foldl_stepwise_append _ _ (fun a p => rfl) _ acc
      | hostSec value params => simp [includeHosts]
      | otherSec p v => simp [includeHosts]
  refine ⟨part1, ?_⟩
  intro env fuel pA pB hfA hexp hfB
  have hB : processIncludeDirectives env (fuel + 1) pB
      = [{ hostname := "host2.example.com", aliasName := some "h2",
           configFile := some pB }] := by
    rw [part1 env fuel pB _ hfB]
    rfl
  rw [show fuel + 2 = (fuel + 1) + 1 from rfl, part1 env (fuel + 1) pA _ hfA]
  simp only [List.map_cons, List.map_nil, includeHosts, hexp]
  rw [hB]
  rfl

/-- Witness for C2: in the concrete environment `envAB`, resolving `A` with
recursion depth 2 yields `[h2, h1]` — the included file's host first. -/
theorem processIncludeDirectives_order_witness :
    envAB.files "A" = some [.includeSec "B",
      .hostSec "h1" [⟨"HostName", "host1.example.com"⟩]] ∧
    envAB.expand "B" "A" = ["B"] ∧
    envAB.files "B" = some [.hostSec "h2" [⟨"HostName", "host2.example.com"⟩]] ∧
    processIncludeDirectives envAB 2 "A"
      = [{ hostname := "host2.example.com", aliasName := some "h2",
           configFile := some "B" },
         { hostname := "host1.example.com", aliasName := some "h1",
           configFile := some "A" }] := by
  exact ⟨rfl, rfl, rfl, processIncludeDirectives_order.2 envAB 0 "A" "B" rfl rfl rfl⟩

/-- C4 counterexample: `parseKnownHosts` does not deduplicate — a file whose
two lines both name `h1` yields `h1` twice — and the first field is
delimited by the space character only, not by general whitespace: a line
whose hostname is separated by a tab keeps the tab-joined text as its
token. -/
theorem parseKnownHosts_not_dedup :
    parseKnownHosts "h1 ssh-ed25519 AAA\nh1 ssh-rsa BBB" = ["h1", "h1"] ∧
    ¬ (["h1", "h1"] : List String).Nodup ∧
    parseKnownHosts "a\tb c" = ["a\tb"] := by
  exact ⟨rfl, by decide, rfl⟩

/-- C4 (amended): `parseKnownHosts` returns, in line order and without
deduplication, for each line that is neither blank (after trimming) nor
starts with `#`, the first comma-delimited token of its first
space-delimited field, dropping empty tokens. -/
theorem parseKnownHosts_tokens (content : String) :
    parseKnownHosts content = specParseKnownHosts content := by
  unfold parseKnownHosts specParseKnownHosts
  rw [filter_map_filter]
  congr 1
  funext line
  by_cases h1 : jsTrim line = "" <;> by_cases h2 : jsStartsWithChar line '#' <;>
    by_cases h3 : (jsSplit ((jsSplit line ' ').headD "") ',').headD "" = "" <;>
      simp [h1, h2, h3]

/-- C5: the registry merge returns all config hosts first (tagged
`ssh_config`, in their given order) and then, for each known-hosts name in
file order, a minimal `known_hosts` record exactly when no config host's
hostname or alias equals that name. -/
theorem getAllKnownHosts_merge (configHosts : List HostInfo) (names : List String) :
    getAllKnownHostsFrom configHosts names
      = configHosts.map tagConfig
        ++ (names.filter
              (fun name => ¬ configHosts.any (fun h => hostMatchesName h name))).map
            minimalKnownHost := by
  unfold getAllKnownHostsFrom
  rw [foldl_stepwise_append _
    (fun name => if configHosts.any (fun h => hostMatchesName h name) then []
      else [minimalKnownHost name]) ?_ names []]
  · rw [flatten_map_ite_singleton]
    simp
  · intro acc name
    by_cases h : configHosts.any (fun h => hostMatchesName h name) <;> simp [h]

lemma setAssoc_of_fresh {α : Type} (l : List (String × α)) (k : String) (v : α)
    (h : l.any (fun kv => kv.1 = k) = false) : setAssoc l k v = l ++ [(k, v)] := by
  simp only [setAssoc, h]
  rfl

lemma loadGroups_foldl (fields : List (String × JVal)) :
    ∀ (acc : List (String × List String)),
      (fields.map Prod.fst).Nodup →
      (∀ kv ∈ fields, acc.any (fun g => g.1 = kv.1) = false) →
      fields.foldl
        (fun groups kv =>
          match kv.2 with
          | .jarr hosts => setAssoc groups kv.1 (hosts.filterMap keepGroupHost)
          | _ => groups)
        acc
      = acc ++ fields.filterMap cleanGroupEntry := by
  induction fields with
  | nil => intro acc _ _; simp
  | cons kv rest ih =>
      intro acc hnodup hfresh
      obtain ⟨k, v⟩ := kv
      have hnodup' : (rest.map Prod.fst).Nodup := (List.nodup_cons.mp hnodup).2
      have hknot : k ∉ rest.map Prod.fst := (List.nodup_cons.mp hnodup).1
      cases v with
      | jarr hosts =>
          have hstep : setAssoc acc k (hosts.filterMap keepGroupHost)
              = acc ++ [(k, hosts.filterMap keepGroupHost)] :=
            setAssoc_of_fresh _ _ _ (hfresh (k, .jarr hosts) (List.mem_cons_self _ _))
          rw [List.foldl_cons]
          simp only [hstep]
          rw [ih (acc ++ [(k, hosts.filterMap keepGroupHost)]) hnodup' ?_]
          · simp [cleanGroupEntry]
          · intro kv' hkv'
            have h1 : acc.any (fun g => g.1 = kv'.1) = false :=
              hfresh kv' (List.mem_cons_of_mem _ hkv')
            have h2 : k ≠ kv'.1 := by
              intro he
              exact hknot (he ▸ List.mem_map_of_mem Prod.fst hkv')
            simp [List.any_append, h1, h2]
      | jnull =>
          rw [List.foldl_cons]
          rw [ih acc hnodup' (fun kv' hkv' => hfresh kv' (List.mem_cons_of_mem _ hkv'))]
          simp [cleanGroupEntry]
      | jbool b =>
          rw [List.foldl_cons]
          rw [ih acc hnodup' (fun kv' hkv' => hfresh kv' (List.mem_cons_of_mem _ hkv'))]
          simp [cleanGroupEntry]
      | jnum q =>
          rw [List.foldl_cons]
          rw [ih acc hnodup' (fun kv' hkv' => hfresh kv' (List.mem_cons_of_mem _ hkv'))]
          simp [cleanGroupEntry]
      | jstr s =>
          rw [List.foldl_cons]
          rw [ih acc hnodup' (fun kv' hkv' => hfresh kv' (List.mem_cons_of_mem _ hkv'))]
          simp [cleanGroupEntry]
      | jobj fs =>
          rw [List.foldl_cons]
          rw [ih acc hnodup' (fun kv' hkv' => hfresh kv' (List.mem_cons_of_mem _ hkv'))]
          simp [cleanGroupEntry]

/-- C8 counterexample: a top-level JSON array is `typeof === 'object'` and
truthy, so it is not treated as empty — the document `[["h1"]]` yields the
group map `{"0": ["h1"]}`, not `{}`. -/
theorem loadGroupsFile_array_not_empty :
    loadGroupsFile (some (.jarr [.jarr [.jstr "h1"]])) = [("0", ["h1"])] ∧
    ([("0", ["h1"])] : List (String × List String)) ≠ [] := by
  exact ⟨rfl, by decide⟩

/-- C8 (amended): `loadGroupsFile` yields an empty map for a missing or
unparseable file and for a top level that is null, a string, a number, or a
boolean; a top-level array, however, passes the `typeof === 'object'` check
and is processed as an index-keyed object.  Within a well-formed object
(unique keys, as JSON.parse produces), a group whose value is not a list is
dropped and list entries that are not strings with non-empty trim are
dropped. -/
theorem loadGroupsFile_tolerant (fields : List (String × JVal))
    (hnodup : (fields.map Prod.fst).Nodup) :
    loadGroupsFile none = [] ∧
    loadGroupsFile (some .jnull) = [] ∧
    (∀ s, loadGroupsFile (some (.jstr s)) = []) ∧
    (∀ q, loadGroupsFile (some (.jnum q)) = []) ∧
    (∀ b, loadGroupsFile (some (.jbool b)) = []) ∧
    loadGroupsFile (some (.jobj fields)) = fields.filterMap cleanGroupEntry := by
  refine ⟨rfl, rfl, ?_, ?_, ?_, ?_⟩
  · intro s; simp [loadGroupsFile, JVal.typeofObject]
  · intro q; simp [loadGroupsFile, JVal.typeofObject]
  · intro b; simp [loadGroupsFile, JVal.typeofObject]
  · rw [show loadGroupsFile (some (.jobj fields))
        = fields.foldl
            (fun groups kv =>
              match kv.2 with
              | .jarr hosts => setAssoc groups kv.1 (hosts.filterMap keepGroupHost)
              | _ => groups)
            []
      from rfl]
    exact loadGroups_foldl fields [] hnodup (fun kv _ => rfl)

/-- Witness for C8 (amended): a well-formed document with one proper group
(containing a non-string and a blank entry, both dropped) and one
non-list group value (dropped). -/
theorem loadGroupsFile_tolerant_witness :
    ([("web", JVal.jarr [.jstr "h1", .jnum 3, .jstr " "]),
        ("bad", JVal.jstr "x")].map Prod.fst).Nodup ∧
    loadGroupsFile (some (.jobj [("web", JVal.jarr [.jstr "h1", .jnum 3, .jstr " "]),
        ("bad", JVal.jstr "x")])) = [("web", ["h1"])] := by
  have h := loadGroupsFile_tolerant
    [("web", JVal.jarr [.jstr "h1", .jnum 3, .jstr " "]), ("bad", JVal.jstr "x")]
    (by decide)
  exact ⟨by decide, h.2.2.2.2.2.trans rfl⟩

/-- C6: when the deduplicated host list is empty, `runBatchCommand` returns
exactly `{results: [], success: false, message: "No hosts provided"}` with
no primitive invocation; and when the command is not a non-blank string it
returns an immediate structured failure (empty results, success false, a
message) with no primitive invocation. -/
theorem runBatchCommand_short_circuit (prim : SshExec) (hosts : List HVal)
    (command : HVal) (options : BatchOptions) :
    (uniqueStrings hosts = [] →
      runBatchCommand prim hosts command options
        = { results := [], success := false, message := some "No hosts provided",
            invocations := [] }) ∧
    ((∀ cmd, command = .str cmd → jsTrim cmd = "") →
      (runBatchCommand prim hosts command options).results = [] ∧
      (runBatchCommand prim hosts command options).success = false ∧
      (runBatchCommand prim hosts command options).message.isSome = true ∧
      (runBatchCommand prim hosts command options).invocations = []) := by
  constructor
  · intro h
    simp [runBatchCommand, h]
  · intro h
    unfold runBatchCommand
    by_cases he : (uniqueStrings hosts).isEmpty
    · simp [he]
    · cases command with
      | nonstr => simp [he]
      | str cmd => simp [he, h cmd rfl]

/-- Witness for C6: the empty host list short-circuits with the exact
message and an empty invocation log. -/
theorem runBatchCommand_short_circuit_witness :
    uniqueStrings ([] : List HVal) = [] ∧
    runBatchCommand primOk [] (.str "uptime") {}
      = { results := [], success := false, message := some "No hosts provided",
          invocations := [] } := by
  exact ⟨rfl, (runBatchCommand_short_circuit primOk [] (.str "uptime") {}).1 rfl⟩

/-- C3 (evaluating the code at the failing input): `runBatchCommand` with
`timeoutMs: 5000` still invokes the remote-execution primitive with the
hard-coded 30000 ms timeout — the computed `perHostTimeoutMs` is never
passed to `runRemoteCommand`, which hard-codes `timeout: 30000`. -/
theorem runBatchCommand_timeout_ignored :
    (runBatchCommand primOk [.str "h1"] (.str "uptime")
        { timeoutMs := some (.fin 5000) }).invocations = [("h1", 30000)] ∧
    (30000 : Int) ≠ 5000 := by
  exact ⟨rfl, by decide⟩

lemma uniqueStrings_foldl_aux (values : List HVal) :
    ∀ (seen out : List String),
      (values.foldl
        (fun (acc : List String × List String) v =>
          match v with
          | .nonstr => acc
          | .str v₀ =>
              let s := jsTrim v₀
              if s = "" ∨ s ∈ acc.1 then acc
              else (acc.1 ++ [s], acc.2 ++ [s]))
        (seen, out)).2
      = out ++ uniqueStringsAux seen values := by
  induction values with
  | nil => intro seen out; simp [uniqueStringsAux]
  | cons v vs ih =>
      intro seen out
      cases v with
      | nonstr => simp [uniqueStringsAux, ih]
      | str v₀ =>
          by_cases h : jsTrim v₀ = "" ∨ jsTrim v₀ ∈ seen
          · simp [uniqueStringsAux, h, ih]
          · simp [uniqueStringsAux, h, ih, List.append_assoc]

lemma uniqueStrings_eq_aux (values : List HVal) :
    uniqueStrings values = uniqueStringsAux [] values := by
  unfold uniqueStrings
  exact uniqueStrings_foldl_aux values [] []

lemma uniqueStringsAux_mem (values : List HVal) :
    ∀ (seen : List String) (s : String),
      s ∈ uniqueStringsAux seen values
        ↔ (s ∉ seen ∧ s ≠ "" ∧ ∃ orig, HVal.str orig ∈ values ∧ jsTrim orig = s) := by
  induction values with
  | nil => intro seen s; simp [uniqueStringsAux]
  | cons v vs ih =>
      intro seen s
      cases v with
      | nonstr =>
          rw [show uniqueStringsAux seen (HVal.nonstr :: vs) = uniqueStringsAux seen vs
            from rfl]
          rw [ih]
          simp
      | str v₀ =>
          by_cases h : jsTrim v₀ = "" ∨ jsTrim v₀ ∈ seen
          · rw [show uniqueStringsAux seen (HVal.str v₀ :: vs) = uniqueStringsAux seen vs
              from by simp [uniqueStringsAux, h]]
            rw [ih]
            constructor
            · rintro ⟨h1, h2, orig, h3, h4⟩
              exact ⟨h1, h2, orig, List.mem_cons_of_mem _ h3, h4⟩
            · rintro ⟨h1, h2, orig, h3, h4⟩
              rcases List.mem_cons.mp h3 with heq | hmem
              · injection heq with hv
                subst hv
                rcases h with h | h
                · exact absurd (h4 ▸ h) h2
                · exact absurd (h4 ▸ h) h1
              · exact ⟨h1, h2, orig, hmem, h4⟩
          · push_neg at h
            rw [show uniqueStringsAux seen (HVal.str v₀ :: vs)
                = jsTrim v₀ :: uniqueStringsAux (seen ++ [jsTrim v₀]) vs
              from by simp [uniqueStringsAux, h.1, h.2]]
            rw [List.mem_cons, ih]
            constructor
            · rintro (rfl | ⟨h1, h2, orig, h3, h4⟩)
              · exact ⟨h.2, h.1, v₀, List.mem_cons_self _ _, rfl⟩
              · refine ⟨fun hs => h1 (List.mem_append.mpr (Or.inl hs)), h2, orig,
                  List.mem_cons_of_mem _ h3, h4⟩
            · rintro ⟨h1, h2, orig, h3, h4⟩
              rcases List.mem_cons.mp h3 with heq | hmem
              · injection heq with hv
                subst hv
                exact Or.inl h4.symm
              · by_cases hs : s = jsTrim v₀
                · exact Or.inl hs
                · refine Or.inr ⟨?_, h2, orig, hmem, h4⟩
                  intro hmem'
                  rcases List.mem_append.mp hmem' with h' | h'
                  · exact h1 h'
                  · exact hs (List.mem_singleton.mp h')

lemma uniqueStringsAux_nodup (values : List HVal) :
    ∀ (seen : List String), (uniqueStringsAux seen values).Nodup := by
  induction values with
  | nil => intro seen; simp [uniqueStringsAux]
  | cons v vs ih =>
      intro seen
      cases v with
      | nonstr => exact ih seen
      | str v₀ =>
          by_cases h : jsTrim v₀ = "" ∨ jsTrim v₀ ∈ seen
          · rw [show uniqueStringsAux seen (HVal.str v₀ :: vs) = uniqueStringsAux seen vs
              from by simp [uniqueStringsAux, h]]
            exact ih seen
          · push_neg at h
            rw [show uniqueStringsAux seen (HVal.str v₀ :: vs)
                = jsTrim v₀ :: uniqueStringsAux (seen ++ [jsTrim v₀]) vs
              from by simp [uniqueStringsAux, h.1, h.2]]
            refine List.nodup_cons.mpr ⟨?_, ih _⟩
            intro hmem
            have := (uniqueStringsAux_mem vs (seen ++ [jsTrim v₀]) (jsTrim v₀)).mp hmem
            exact this.1 (List.mem_append.mpr (Or.inr (List.mem_singleton.mpr rfl)))

lemma uniqueStrings_mem (values : List HVal) (s : String) :
    s ∈ uniqueStrings values
      ↔ (s ≠ "" ∧ ∃ orig, HVal.str orig ∈ values ∧ jsTrim orig = s) := by
  rw [uniqueStrings_eq_aux, uniqueStringsAux_mem]
  simp

lemma uniqueStrings_nodup (values : List HVal) : (uniqueStrings values).Nodup := by
  rw [uniqueStrings_eq_aux]
  exact uniqueStringsAux_nodup values []

/-- C10: for every call to `runBatchCommand` with a non-blank command, the
`host` fields of the per-host results are exactly the trimmed, deduplicated
host entries in first-seen order: the result hosts are pairwise distinct,
and a string appears among them exactly when it is non-empty and is the
trim of some string entry of the input — so entries equal after trimming
count as one host, and each result's `host` is the trimmed string. -/
theorem runBatchCommand_hosts_trimmed (prim : SshExec) (hosts : List HVal)
    (cmd : String) (options : BatchOptions) (hcmd : jsTrim cmd ≠ "") :
    ((runBatchCommand prim hosts (.str cmd) options).results.map (fun r => r.host)
        = uniqueStrings hosts) ∧
    ((runBatchCommand prim hosts (.str cmd) options).results.map
        (fun r => r.host)).Nodup ∧
    (∀ s, s ∈ (runBatchCommand prim hosts (.str cmd) options).results.map
          (fun r => r.host)
        ↔ (s ≠ "" ∧ ∃ orig, HVal.str orig ∈ hosts ∧ jsTrim orig = s)) := by
  have hmap : (runBatchCommand prim hosts (.str cmd) options).results.map
      (fun r => r.host) = uniqueStrings hosts := by
    unfold runBatchCommand
    by_cases he : (uniqueStrings hosts).isEmpty
    · simp [he, List.isEmpty_iff.mp he]
    · simp only [he, Bool.false_eq_true, if_false, hcmd, ite_false, List.map_map]
      show List.map (fun h => h) (uniqueStrings hosts) = uniqueStrings hosts
      simp
  refine ⟨hmap, ?_, ?_⟩
  · rw [hmap]
    exact uniqueStrings_nodup hosts
  · intro s
    rw [hmap]
    exact uniqueStrings_mem hosts s

/-- Witness for C10: the entries `" h "` and `"h"` collapse to the single
trimmed host `"h"`, blank and non-string entries are dropped. -/
theorem runBatchCommand_hosts_trimmed_witness :
    jsTrim "uptime" ≠ "" ∧
    (runBatchCommand primOk [.str " h ", .str "h", .nonstr, .str "  "]
        (.str "uptime") {}).results.map (fun r => r.host) = ["h"] := by
  have h := runBatchCommand_hosts_trimmed primOk
    [.str " h ", .str "h", .nonstr, .str "  "] "uptime" {} (by decide)
  exact ⟨by decide, h.1.trans rfl⟩

/-- C9 counterexample: a whitespace-only (hence blank but non-empty)
`localPath` is not rejected — `syncFile` proceeds to invoke the scp
primitive once and reports overall success, instead of returning an
immediate failure with no invocation. -/
theorem syncFile_blank_path_not_rejected :
    (syncFile primSyncOk (.str " ") (.str "/tmp/x") [.str "h"] {}).invocations
      = [{ tool := "scp", host := "h", localPath := " ", remotePath := "/tmp/x",
           withDelete := false, timeoutMs := 120000 }] ∧
    (syncFile primSyncOk (.str " ") (.str "/tmp/x") [.str "h"] {}).success = true := by
  exact ⟨rfl, rfl⟩

/-- C9 (amended): when `localPath` or `remotePath` is not a string or is the
empty string, `syncFile` returns an immediate structured failure — empty
results, success false — without invoking any per-host copy or sync
primitive (a whitespace-only path, being truthy, is not rejected). -/
theorem syncFile_invalid_path_short_circuit (prim : SyncPrim)
    (localPath remotePath : HVal) (hosts : List HVal) (options : SyncOptions)
    (h : invalidPathArg localPath = true ∨ invalidPathArg remotePath = true) :
    (syncFile prim localPath remotePath hosts options).results = [] ∧
    (syncFile prim localPath remotePath hosts options).success = false ∧
    (syncFile prim localPath remotePath hosts options).invocations = [] := by
  unfold syncFile
  by_cases he : (uniqueStrings hosts).isEmpty
  · simp [he]
  · rcases h with h | h
    · simp [he, h]
    · by_cases hl : invalidPathArg localPath <;> simp [he, h, hl]

/-- Witness for C9 (amended): a non-string `localPath` short-circuits with
no invocation. -/
theorem syncFile_invalid_path_short_circuit_witness :
    (invalidPathArg .nonstr = true ∨ invalidPathArg (.str "/tmp/x") = true) ∧
    (syncFile primSyncOk .nonstr (.str "/tmp/x") [.str "h"] {}).results = [] ∧
    (syncFile primSyncOk .nonstr (.str "/tmp/x") [.str "h"] {}).success = false ∧
    (syncFile primSyncOk .nonstr (.str "/tmp/x") [.str "h"] {}).invocations = [] := by
  have hyp : invalidPathArg HVal.nonstr = true ∨ invalidPathArg (HVal.str "/tmp/x") = true :=
    Or.inl rfl
  exact ⟨hyp, syncFile_invalid_path_short_circuit primSyncOk .nonstr (.str "/tmp/x")
    [.str "h"] {} hyp⟩

end McpSsh
